import Mathlib

/-!
Verification of the orchestration core of `jira_installer.py`
(tugasky/Xray-Support-DockerJiraInstaller).

Each definition below is a shallow embedding of a function of the source
file; the name of the source function is kept wherever Lean allows it.
Machine/OS concerns are modelled explicitly:

* the filesystem is an association list from path strings to file contents;
* wall-clock time is an explicit `Nat` parameter (`time.time()` readings);
* exceptions of fallible OS primitives (`os.remove`, `shutil.copy2`,
  `shutil.move`, the `mysqladmin` probe, ...) are modelled by explicit
  fault flags / `Option` results;
* the Tk widget state touched by the step panel (`step_labels`,
  `overall_progress_bar`, timers, ...) is a record `UIState`.
-/

/-! ## Version comparison (`compare_versions`, source lines 32-55) -/

/-- One split step of Python's `str.split('.')` on a character list:
`"".split('.') = ['']`, and every `'.'` starts a new (possibly empty) part. -/
def splitDots : List Char → List (List Char)
  | [] => [[]]
  | c :: cs =>
    if c = '.' then [] :: splitDots cs
    else
      match splitDots cs with
      | [] => [[c]]
      | h :: t => (c :: h) :: t

/-- Digit accumulator of CPython's `int(str)` after the first digit:
further characters must be digits, with single grouping underscores
allowed only between two digits. -/
def pyDigitsGo : List Char → Nat → Option Nat
  | [], acc => some acc
  | c :: cs, acc =>
    if c.isDigit then pyDigitsGo cs (acc * 10 + (c.toNat - 48))
    else if c = '_' then
      match cs with
      | [] => none
      | d :: cs2 =>
        if d.isDigit then pyDigitsGo cs2 (acc * 10 + (d.toNat - 48)) else none
    else none

/-- Value of a nonempty ASCII digit string (with CPython grouping
underscores); `none` when the string is not a valid digit run. -/
def pyDigitsVal : List Char → Option Nat
  | [] => none
  | c :: cs => if c.isDigit then pyDigitsGo cs (c.toNat - 48) else none

/-- Leading/trailing whitespace removal performed by `int(str)`. -/
def stripWs (cs : List Char) : List Char :=
  ((cs.dropWhile Char.isWhitespace).reverse.dropWhile Char.isWhitespace).reverse

/-- CPython `int(x)` on an ASCII string: strip whitespace, optional sign,
nonempty digit run; `none` models the `ValueError` branch.  (Non-ASCII
digits are outside the inputs considered here.) -/
def pyInt (cs : List Char) : Option Int :=
  match stripWs cs with
  | '-' :: rest => (pyDigitsVal rest).map (fun n => -(n : Int))
  | '+' :: rest => (pyDigitsVal rest).map (fun n => (n : Int))
  | rest => (pyDigitsVal rest).map (fun n => (n : Int))

/-- Embeds `[int(x) for x in version.split('.')]`: `none` when any part raises. -/
def parseVersionParts (s : String) : Option (List Int) :=
  (splitDots s.data).mapM pyInt

/-- The comparison loop of `compare_versions` over the two zero-padded
part lists (`for i in range(max_len): ...`): first unequal entry decides. -/
def cmpAligned : List Int → List Int → Int
  | a :: as, b :: bs =>
    if a < b then -1 else if b < a then 1 else cmpAligned as bs
  | _, _ => 0

/-- Embeds `parts.extend([0] * (max_len - len(parts)))`. -/
def padZeros (l : List Int) (n : Nat) : List Int :=
  l ++ List.replicate (n - l.length) 0

/-- Embeds `compare_versions(version1, version2)` (source lines 32-55): numeric
dot-segment comparison after right zero-padding, with a fallback to plain
string comparison when either version fails integer parsing. -/
def compare_versions (version1 version2 : String) : Int :=
  match parseVersionParts version1, parseVersionParts version2 with
  | some v1_parts, some v2_parts =>
    let max_len := max v1_parts.length v2_parts.length
    cmpAligned (padZeros v1_parts max_len) (padZeros v2_parts max_len)
  | _, _ =>
    if version1 < version2 then -1
    else if version2 < version1 then 1
    else 0

theorem cmpAligned_antisymm (a : List Int) : ∀ b, cmpAligned a b = -cmpAligned b a := by
  induction a with
  | nil => intro b; cases b <;> simp [cmpAligned]
  | cons x xs ih =>
    intro b
    cases b with
    | nil => simp [cmpAligned]
    | cons y ys =>
      rcases lt_trichotomy x y with h | h | h
      · simp [cmpAligned, h, lt_asymm h]
      · subst h
        simp [cmpAligned, ih ys]
      · simp [cmpAligned, h, lt_asymm h]

theorem fallbackCmp_antisymm (a b : String) :
    (if a < b then (-1 : Int) else if b < a then 1 else 0)
      = -(if b < a then (-1 : Int) else if a < b then 1 else 0) := by
  rcases lt_trichotomy a b with h | h | h
  · simp [h, lt_asymm h]
  · subst h; simp
  · simp [h, lt_asymm h]

/-- C4: `compare_versions` implements numeric dot-segment comparison with
right zero-padding and a lexicographic string fallback; it is antisymmetric
(`compare(a,b) = -compare(b,a)` for all strings), and
`compare("9.4","9.4.0") = 0`, `compare("9.4.1","9.5.0") = -1`,
`compare("10.0.0","9.9.9") = 1`. -/
theorem compare_versions_spec :
    (∀ a b : String, compare_versions a b = -compare_versions b a)
    ∧ compare_versions "9.4" "9.4.0" = 0
    ∧ compare_versions "9.4.1" "9.5.0" = -1
    ∧ compare_versions "10.0.0" "9.9.9" = 1 := by
  refine ⟨?_, by decide, by decide, by decide⟩
  intro a b
  rcases h1 : parseVersionParts a with _ | p1 <;> rcases h2 : parseVersionParts b with _ | p2 <;>
    simp only [compare_versions, h1, h2]
  · exact fallbackCmp_antisymm a b
  · exact fallbackCmp_antisymm a b
  · exact fallbackCmp_antisymm a b
  · rw [Nat.max_comm]
    exact cmpAligned_antisymm _ _

/-! ## Tar path-traversal guard (`safe_extract_tar`, source lines 369-375)

Paths are modelled as lists of name segments of an absolute path.
`normSegs` is `os.path.abspath` style normalisation of the joined path
(`.` and empty segments dropped, `..` removes the previous segment, `..`
above the root stays at the root), and `pathUnder base p` models
`p == base or p.startswith(base + os.sep)` on normalised paths. -/

def normSegsStep (acc : List String) (seg : String) : List String :=
  if seg = "" ∨ seg = "." then acc
  else if seg = ".." then acc.dropLast
  else acc ++ [seg]

def normSegs (segs : List String) : List String := segs.foldl normSegsStep []

def pathUnder : List String → List String → Bool
  | [], _ => true
  | _ :: _, [] => false
  | a :: as, b :: bs => a == b && pathUnder as bs

/-- The member loop of `safe_extract_tar`: every member is checked before
anything is extracted; the first member whose resolved path is not under
the destination raises (`some` error text). -/
def tarCheckLoop (base dest : List String) : List (List String) → Option String
  | [] => none
  | m :: ms =>
    let member_path := normSegs (dest ++ m)
    if pathUnder base member_path then tarCheckLoop base dest ms
    else some "Blocked path traversal in tar file"

/-- Embeds `safe_extract_tar(tar, path)`: check all members, then `tar.extractall`.
The filesystem is the list of already-present paths; on the exception path
it is returned unchanged, on success all members are extracted. -/
def safe_extract_tar (fsPaths : List (List String)) (dest : List String)
    (members : List (List String)) : Option String × List (List String) :=
  let base := normSegs dest
  match tarCheckLoop base dest members with
  | some e => (some e, fsPaths)
  | none => (none, fsPaths ++ members.map (fun m => normSegs (dest ++ m)))

theorem tarCheckLoop_eq_none (base dest : List String) (members : List (List String)) :
    tarCheckLoop base dest members = none
      ↔ ∀ m ∈ members, pathUnder base (normSegs (dest ++ m)) = true := by
  induction members with
  | nil => simp [tarCheckLoop]
  | cons m ms ih =>
    by_cases h : pathUnder base (normSegs (dest ++ m)) = true
    · simp only [tarCheckLoop]
      rw [if_pos h]
      simp only [List.mem_cons]
      constructor
      · intro hn x hx
        rcases hx with rfl | hx
        · exact h
        · exact (ih.mp hn) x hx
      · intro hall
        exact ih.mpr fun x hx => hall x (Or.inr hx)
    · simp only [tarCheckLoop]
      rw [if_neg h]
      constructor
      · intro hn; cases hn
      · intro hall
        exact absurd (hall m (List.mem_cons_self m ms)) h

/-- C5: for every archive and destination, if any member's resolved path
escapes the destination directory, `safe_extract_tar` raises the
path-traversal error and the destination filesystem is left unchanged
(no member is extracted); if no member escapes, all members are
extracted. -/
theorem safe_extract_tar_guard (fsPaths : List (List String)) (dest : List String)
    (members : List (List String)) :
    ((∃ m ∈ members, pathUnder (normSegs dest) (normSegs (dest ++ m)) = false) →
      safe_extract_tar fsPaths dest members
        = (some "Blocked path traversal in tar file", fsPaths))
    ∧ ((∀ m ∈ members, pathUnder (normSegs dest) (normSegs (dest ++ m)) = true) →
      safe_extract_tar fsPaths dest members
        = (none, fsPaths ++ members.map (fun m => normSegs (dest ++ m)))) := by
  constructor
  · rintro ⟨m, hm, hbad⟩
    have hne : tarCheckLoop (normSegs dest) dest members ≠ none := by
      intro hnone
      have := (tarCheckLoop_eq_none (normSegs dest) dest members).mp hnone m hm
      rw [this] at hbad
      cases hbad
    rcases he : tarCheckLoop (normSegs dest) dest members with _ | e
    · exact absurd he hne
    · have hmsg : e = "Blocked path traversal in tar file" := by
        clear hne hbad hm
        induction members with
        | nil => cases he
        | cons x xs ih =>
          rw [tarCheckLoop] at he
          by_cases hx : pathUnder (normSegs dest) (normSegs (dest ++ x)) = true
          · rw [if_pos hx] at he
            exact ih he
          · rw [if_neg hx] at he
            exact (Option.some_inj.mp he).symm
      subst hmsg
      simp [safe_extract_tar, he]
  · intro hall
    have hnone := (tarCheckLoop_eq_none (normSegs dest) dest members).mpr hall
    simp [safe_extract_tar, hnone]

/-- Witness for `safe_extract_tar_guard`: the crafted member `../../evil`
under destination `/d/dest` resolves outside the destination, so extraction
fails with the traversal error and the filesystem is unchanged. -/
theorem safe_extract_tar_guard_witness :
    safe_extract_tar [["d", "dest", "old"]] ["d", "dest"] [[".." , "..", "evil"]]
      = (some "Blocked path traversal in tar file", [["d", "dest", "old"]]) :=
  (safe_extract_tar_guard [["d", "dest", "old"]] ["d", "dest"] [[".." , "..", "evil"]]).1
    ⟨[".." , "..", "evil"], by decide, by decide⟩

/-! ## MySQL readiness poller (`wait_for_mysql_ready`, source lines 377-400)

The probe (`docker exec ... mysqladmin ping`) is modelled as an oracle
`probe : Nat → Option Bool` giving the outcome of the k-th attempt:
`some true` = exit code 0, `some false` = nonzero exit code, `none` = the
`subprocess.run` call raised (swallowed by the `except` clause).  Time
advances only through `time.sleep(poll_interval_seconds)`, so when the
loop condition `time.time() - start_time < timeout_seconds` is tested
before attempt `k`, the elapsed time is `k * interval`.  The `fuel`
argument bounds the number of iterations; `wait_for_mysql_ready` passes
enough fuel for every terminating run (interval ≥ 1). -/

def waitLoop (probe : Nat → Option Bool) (timeout interval : Nat) : Nat → Nat → Bool
  | 0, _ => false
  | fuel + 1, k =>
    if k * interval < timeout then
      match probe k with
      | some true => true
      | _ => waitLoop probe timeout interval fuel (k + 1)
    else false

def wait_for_mysql_ready (probe : Nat → Option Bool) (timeout interval : Nat) : Bool :=
  waitLoop probe timeout interval (timeout + 1) 0

theorem waitLoop_true_of_probe (probe : Nat → Option Bool) (timeout interval n : Nat)
    (hn : probe n = some true) (hin : n * interval < timeout) :
    ∀ fuel k, k ≤ n → n - k < fuel → (∀ j, k ≤ j → j < n → probe j ≠ some true) →
      waitLoop probe timeout interval fuel k = true := by
  intro fuel
  induction fuel with
  | zero => intro k _ hf; omega
  | succ fuel ih =>
    intro k hk _ hprev
    have hcond : k * interval < timeout :=
      lt_of_le_of_lt (Nat.mul_le_mul_right interval hk) hin
    rw [waitLoop, if_pos hcond]
    rcases Nat.eq_or_lt_of_le hk with rfl | hlt
    · rw [hn]
    · have hne : probe k ≠ some true := hprev k le_rfl hlt
      rcases hp : probe k with _ | b
      · exact ih (k + 1) hlt (by omega) fun j hj hjn => hprev j (by omega) hjn
      · cases b
        · exact ih (k + 1) hlt (by omega) fun j hj hjn => hprev j (by omega) hjn
        · exact absurd hp hne

theorem waitLoop_false_of_never (probe : Nat → Option Bool) (timeout interval : Nat)
    (hnever : ∀ k, k * interval < timeout → probe k ≠ some true) :
    ∀ fuel k, waitLoop probe timeout interval fuel k = false := by
  intro fuel
  induction fuel with
  | zero => intro k; rfl
  | succ fuel ih =>
    intro k
    rw [waitLoop]
    by_cases hc : k * interval < timeout
    · rw [if_pos hc]
      rcases hp : probe k with _ | b
      · exact ih (k + 1)
      · cases b
        · exact ih (k + 1)
        · exact absurd hp (hnever k hc)
    · rw [if_neg hc]

theorem waitLoop_probe_errors_as_false (probe : Nat → Option Bool) (timeout interval : Nat) :
    ∀ fuel k, waitLoop probe timeout interval fuel k
      = waitLoop (fun j => some ((probe j).getD false)) timeout interval fuel k := by
  intro fuel
  induction fuel with
  | zero => intro k; rfl
  | succ fuel ih =>
    intro k
    rw [waitLoop, waitLoop]
    by_cases hc : k * interval < timeout
    · rw [if_pos hc, if_pos hc]
      rcases hp : probe k with _ | b
      · simp only [hp, Option.getD_none]
        exact ih (k + 1)
      · cases b
        · simp only [hp, Option.getD_some]
          exact ih (k + 1)
        · simp only [hp, Option.getD_some]
    · rw [if_neg hc, if_neg hc]

/-- C6: the readiness poller repeatedly invokes the probe with the poll
interval slept between attempts; it returns `true` as soon as a probe
reports ready, returns `false` once the elapsed time reaches the timeout
with no successful probe, and a probe invocation that raises is treated
exactly like a not-ready probe (it does not shorten the deadline).  With
the first success on call `N = n+1` and `interval * N < timeout` the
result is `true`. -/
theorem wait_for_mysql_ready_spec (probe : Nat → Option Bool) (timeout interval n : Nat) :
    (0 < interval → (∀ j, j < n → probe j ≠ some true) → probe n = some true →
      interval * (n + 1) < timeout → wait_for_mysql_ready probe timeout interval = true)
    ∧ ((∀ k, k * interval < timeout → probe k ≠ some true) →
      wait_for_mysql_ready probe timeout interval = false)
    ∧ wait_for_mysql_ready probe timeout interval
        = wait_for_mysql_ready (fun j => some ((probe j).getD false)) timeout interval := by
  refine ⟨?_, ?_, ?_⟩
  · intro hpos hprev hn hdl
    have hin : n * interval < timeout := by
      have : n * interval ≤ interval * (n + 1) := by
        rw [Nat.mul_comm]
        exact Nat.mul_le_mul_left interval (Nat.le_succ n)
      omega
    have hnle : n ≤ n * interval := Nat.le_mul_of_pos_right n hpos
    exact waitLoop_true_of_probe probe timeout interval n hn hin (timeout + 1) 0
      (Nat.zero_le n) (by omega) (fun j _ hj => hprev j hj)
  · intro hnever
    exact waitLoop_false_of_never probe timeout interval hnever (timeout + 1) 0
  · exact waitLoop_probe_errors_as_false probe timeout interval (timeout + 1) 0

/-- Witness for `wait_for_mysql_ready_spec`: a probe that errors once,
then reports not-ready, then succeeds on its third call, with interval 2
and timeout 10, makes the poller return `true`; a probe that never
succeeds makes it return `false` at timeout 5. -/
theorem wait_for_mysql_ready_spec_witness :
    wait_for_mysql_ready
        (fun k => if k = 0 then none else if k = 1 then some false else some true) 10 2 = true
    ∧ wait_for_mysql_ready (fun _ => some false) 5 2 = false := by
  constructor
  · exact (wait_for_mysql_ready_spec
        (fun k => if k = 0 then none else if k = 1 then some false else some true) 10 2 2).1
      (by decide) (by decide) (by decide) (by decide)
  · exact (wait_for_mysql_ready_spec (fun _ => some false) 5 2 0).2.1
      (fun k _ => by simp)

/-! ## UI dispatcher queue (`ui_queue` / `log` / `ui_drain` / `ask_yes_no_on_ui`,
source lines 314-360 and 557-594)

`queue.Queue` with a single consumer is modelled as a list: `put` appends
at the back, the drain loop pops from the front until the queue is empty.
Closures passed through a `("call", func, args, kwargs)` item are opaque to
the model and carried as a numeric id.  The effect trace records, in
order, what the presentation loop does with each item. -/

inductive UIMsg where
  | log (msg : String)
  | call (action : Nat)
  | error (title message : String)
  | askyesno (title message : String)
deriving DecidableEq

inductive UIEffect where
  | logLine (msg : String)
  | invoke (action : Nat)
  | showError (title message : String)
  | confirmAnswered (title message : String)
deriving DecidableEq

/-- The `if kind == ...` dispatch of one drained item in `ui_drain`. -/
def processMessage : UIMsg → UIEffect
  | .log m => .logLine m
  | .call a => .invoke a
  | .error t m => .showError t m
  | .askyesno t m => .confirmAnswered t m

/-- Embeds `ui_drain`: pop every currently queued item (front to back) and process
it; the resulting effect trace preserves queue order. -/
def ui_drain (queueItems : List UIMsg) : List UIEffect :=
  queueItems.map processMessage

/-- Embeds `log(msg)`: `ui_queue.put(("log", msg))` — FIFO append at the back. -/
def enqueue_log (q : List UIMsg) (msg : String) : List UIMsg :=
  q ++ [UIMsg.log msg]

/-- A worker thread issuing a sequence of `log` calls in order. -/
def enqueueLogs (q : List UIMsg) (msgs : List String) : List UIMsg :=
  msgs.foldl enqueue_log q

theorem enqueueLogs_eq (msgs : List String) :
    ∀ q, enqueueLogs q msgs = q ++ msgs.map UIMsg.log := by
  induction msgs with
  | nil => intro q; simp [enqueueLogs]
  | cons m ms ih =>
    intro q
    simp only [enqueueLogs, List.foldl_cons] at *
    rw [ih (enqueue_log q m)]
    simp [enqueue_log]

/-- C8: messages enqueued by a single worker are observed by the
presentation loop in exactly the order they were enqueued: draining the
queue after a worker logged `msgs` and then requested a confirmation
processes any earlier contents first, then every log line of `msgs` in
order, and answers the confirmation only after all of them. -/
theorem ui_drain_fifo (q0 : List UIMsg) (msgs : List String) (title message : String) :
    ui_drain (enqueueLogs q0 msgs ++ [UIMsg.askyesno title message])
      = ui_drain q0 ++ msgs.map UIEffect.logLine
          ++ [UIEffect.confirmAnswered title message] := by
  rw [enqueueLogs_eq]
  simp [ui_drain, processMessage, Function.comp]

/-- Embeds `result_container.get("result", False)` after the presentation loop ran
`messagebox.askyesno`: `none` models the dialog call raising, in which case
no result is stored and the default `False` is returned. -/
def answerConfirm (dialogAnswer : Option Bool) : Bool :=
  dialogAnswer.getD false

/-- Embeds `ask_yes_no_on_ui(title, message)` (source lines 349-360).  On the main
thread the dialog is shown synchronously (exceptions yield `False`) and the
queue is not touched; on a worker thread a single `askyesno` item is
enqueued and the caller blocks until the drain loop stores the answer. -/
def ask_yes_no_on_ui (isMainThread : Bool) (dialogAnswer : Option Bool)
    (q : List UIMsg) (title message : String) : Bool × List UIMsg :=
  if isMainThread then
    (answerConfirm dialogAnswer, q)
  else
    (answerConfirm dialogAnswer, q ++ [UIMsg.askyesno title message])

/-- C9: a confirmation requested on the presentation (main) thread resolves
synchronously — it returns a boolean and puts nothing on the dispatcher
queue, so the single-threaded case cannot self-deadlock; only a call from
a non-main thread appends a confirm message to the queue. -/
theorem ask_yes_no_on_ui_main_thread (dialogAnswer : Option Bool) (q : List UIMsg)
    (title message : String) :
    (ask_yes_no_on_ui true dialogAnswer q title message).2 = q
    ∧ (ask_yes_no_on_ui true dialogAnswer q title message).1 = answerConfirm dialogAnswer
    ∧ (ask_yes_no_on_ui false dialogAnswer q title message).2
        = q ++ [UIMsg.askyesno title message] :=
  ⟨rfl, rfl, rfl⟩

/-! ## Step panel state machine (source lines 597-712)

`UIState` collects the module-level globals mutated by the steps panel:
`current_steps`, `step_labels` (each label's text, foreground colour, bold
flag and background colour), `overall_steps_total`, `overall_steps_done`,
`install_start_time`, `current_step_start_time`, `current_step_index`, the
value shown by the overall progress bar/label, and whether the
one-second elapsed-updates job is scheduled.  Indices are `Int` so that
Python's `0 <= index < len(step_labels)` guard is modelled on negative
inputs as well.  The float percentage `int((done / total) * 100)` is
modelled exactly: CPython divides the two integers with correct rounding
to IEEE binary64 (round half to even, `OverflowError` on overflow),
multiplies by 100 with another correctly rounded binary64 step (silent
overflow to infinity, on which `int` raises), and truncates.  The model
computes the same correctly rounded dyadic values (`roundRatToB64`), and
an `OverflowError` — which the drain loop's broad `except` swallows, so
the widget keeps its previous value — is `none`. -/

structure StepLabel where
  text : String
  fg : String
  bold : Bool
  bg : String
deriving DecidableEq

def defaultLabel : StepLabel :=
  { text := "", fg := "default", bold := false, bg := "default" }

structure UIState where
  current_steps : List String
  step_labels : List StepLabel
  overall_steps_total : Nat
  overall_steps_done : Nat
  install_start_time : Option Nat
  current_step_start_time : Option Nat
  current_step_index : Option Nat
  overall_progress_value : Nat
  elapsed_job_scheduled : Bool
deriving DecidableEq

/-- The state of the panel globals before any run. -/
def blankUI : UIState :=
  { current_steps := [], step_labels := [], overall_steps_total := 0,
    overall_steps_done := 0, install_start_time := none,
    current_step_start_time := none, current_step_index := none,
    overall_progress_value := 0, elapsed_job_scheduled := false }

/-- Round `a / b` (with `b ≥ 1`) to the nearest integer, ties to even —
the rounding used by IEEE binary64 arithmetic. -/
def roundHalfEven (a b : Nat) : Nat :=
  let q := a / b
  let r := a % b
  if 2 * r < b then q
  else if 2 * r > b then q + 1
  else if q % 2 = 0 then q else q + 1

/-- Fuel-driven floor of the base-2 logarithm (kernel-reducible, unlike
the library's well-founded `Nat.log2`). -/
def natLog2Go : Nat → Nat → Nat
  | 0, _ => 0
  | fuel + 1, n => if 2 ≤ n then natLog2Go fuel (n / 2) + 1 else 0

def natLog2 (n : Nat) : Nat := natLog2Go n n

/-- Whether `num / den ≥ 2 ^ e` for naturals `num, den ≥ 1`. -/
def ratGe2Pow (num den : Nat) (e : Int) : Bool :=
  if 0 ≤ e then decide (den * 2 ^ e.toNat ≤ num)
  else decide (den ≤ num * 2 ^ (-e).toNat)

/-- Floor of the base-2 logarithm of `num / den` (`num, den ≥ 1`). -/
def ratLog2 (num den : Nat) : Int :=
  let c : Int := (natLog2 num : Int) - (natLog2 den : Int)
  if ratGe2Pow num den c then c else c - 1

/-- Whether the dyadic value `m * 2 ^ g` is at least `2 ^ k`: with
`L = floor(log2 m)` this holds exactly when `L + g ≥ k` (for `L + g > k`
already `2 ^ L * 2 ^ g` exceeds `2 ^ k`; for `L + g = k` use `m ≥ 2 ^ L`;
for `L + g < k` even `2 ^ (L+1) * 2 ^ g` is at most `2 ^ k`). -/
def dyadicGe2Pow (m : Nat) (g : Int) (k : Nat) : Bool :=
  if m = 0 then false
  else decide ((k : Int) ≤ (natLog2 m : Int) + g)

/-- Round the nonnegative rational `num / den` (`den ≥ 1`) to IEEE binary64:
round half to even on the grid of the result's binade (clamped to the
subnormal grid `2 ^ -1074`), `none` when the rounded value reaches
`2 ^ 1024` (overflow).  The result is the exact dyadic value `m * 2 ^ g`
of the rounded float. -/
def roundRatToB64 (num den : Nat) : Option (Nat × Int) :=
  if num = 0 then some (0, 0)
  else
    let e := ratLog2 num den
    let g : Int := max (e - 52) (-1074)
    let m :=
      if 0 ≤ g then roundHalfEven num (den * 2 ^ g.toNat)
      else roundHalfEven (num * 2 ^ (-g).toNat) den
    if dyadicGe2Pow m g 1024 then none else some (m, g)

/-- Embeds the float product `q * 100` of CPython: the exact dyadic product
rounded to binary64; overflow gives infinity, on which the following
`int()` raises, so it is `none` here too. -/
def pyFloatMul100 : Nat × Int → Option (Nat × Int)
  | (m, g) =>
    if 0 ≤ g then roundRatToB64 (m * 100 * 2 ^ g.toNat) 1
    else roundRatToB64 (m * 100) (2 ^ (-g).toNat)

/-- Embeds `int()` on a nonnegative float given as the dyadic `m * 2 ^ g`:
truncation toward zero, i.e. the floor. -/
def truncDyadic : Nat × Int → Nat
  | (m, g) => if 0 ≤ g then m * 2 ^ g.toNat else m / 2 ^ (-g).toNat

/-- Embeds `int((done / total) * 100)` on CPython integers `done, total`
(`total ≥ 1`): correctly rounded binary64 true division (raising
`OverflowError` when the quotient overflows), binary64 multiplication by
100, truncation; `none` models the raised `OverflowError`. -/
def pyPctFloat (done total : Nat) : Option Nat :=
  match roundRatToB64 done total with
  | none => none
  | some q =>
    match pyFloatMul100 q with
    | none => none
    | some y => some (truncDyadic y)

/-- Embeds `percent = int((overall_steps_done / total) * 100)` with
`total = overall_steps_total if overall_steps_total else 1`. -/
def pctValue (done total : Nat) : Option Nat :=
  pyPctFloat done (if total = 0 then 1 else total)

/-- Embeds `update_overall_progress()` (source lines 708-712).  When the
percentage computation raises `OverflowError`, the exception propagates to
the drain loop's broad `except` and is swallowed before either widget is
touched, so the displayed value keeps its previous state. -/
def update_overall_progress (s : UIState) : UIState :=
  let percent := (pctValue s.overall_steps_done s.overall_steps_total).getD s.overall_progress_value
  { s with overall_progress_value := percent }

/-- Embeds `increment_overall_progress()` (source lines 703-706). -/
def increment_overall_progress (s : UIState) : UIState :=
  update_overall_progress { s with overall_steps_done := s.overall_steps_done + 1 }

/-- Embeds the `tk.Label` that `init_steps_panel` creates for each declared
step: its text is the string `[RUNNING] ` followed by the step title. -/
def initLabel (title : String) : StepLabel :=
  { text := "[RUNNING] " ++ title, fg := "default", bold := false, bg := "default" }

/-- Embeds `init_steps_panel(steps)` (source lines 597-614): fresh labels (all
created with text `[RUNNING] title`), zeroed counters, run timer started,
no current step, initial progress render, elapsed-updates job started. -/
def init_steps_panel (steps : List String) (now : Nat) (s : UIState) : UIState :=
  update_overall_progress
    { current_steps := steps,
      step_labels := steps.map initLabel,
      overall_steps_total := steps.length,
      overall_steps_done := 0,
      install_start_time := some now,
      current_step_start_time := none,
      current_step_index := none,
      overall_progress_value := s.overall_progress_value,
      elapsed_job_scheduled := true }

/-- Embeds `start_step_timer()` (source lines 644-646). -/
def start_step_timer (now : Nat) (s : UIState) : UIState :=
  { s with current_step_start_time := some now }

/-- The `config(bg=root.cget('bg'), font=(None, 9, 'normal'))` demotion of
the previously current step in `set_step_running`: styling only — the
text is left as it is. -/
def demoteLabel (l : StepLabel) : StepLabel :=
  { l with bg := "default", bold := false }

/-- The `if current_step_index is not None and 0 <= current_step_index <
len(step_labels)` reset of the previous current step in
`set_step_running`: only that label's styling changes. -/
def demotedLabels (s : UIState) : List StepLabel :=
  match s.current_step_index with
  | some j =>
    if j < s.step_labels.length then
      s.step_labels.set j (demoteLabel (s.step_labels.getD j defaultLabel))
    else s.step_labels
  | none => s.step_labels

/-- Embeds `set_step_running(index)` (source lines 616-628). -/
def set_step_running (index : Int) (now : Nat) (s : UIState) : UIState :=
  if 0 ≤ index ∧ index < (s.step_labels.length : Int) then
    let i := index.toNat
    let title := s.current_steps.getD i ""
    let lbl : StepLabel :=
      { text := "[RUNNING] " ++ title, fg := "black", bold := true, bg := "#fffbe6" }
    start_step_timer now
      { s with step_labels := (demotedLabels s).set i lbl, current_step_index := some i }
  else s

/-- Embeds `get_and_clear_step_duration()` (source lines 648-654);
`max(0, int(now - started))` is `Nat` truncated subtraction. -/
def get_and_clear_step_duration (now : Nat) (s : UIState) : Nat × UIState :=
  match s.current_step_start_time with
  | none => (0, s)
  | some started => (now - started, { s with current_step_start_time := none })

/-- Embeds `format_duration(seconds)` (source lines 656-667). -/
def format_duration (seconds : Nat) : String :=
  let m := seconds / 60
  let s := seconds % 60
  let h := m / 60
  let m2 := m % 60
  if h ≠ 0 then toString h ++ "h " ++ toString m2 ++ "m " ++ toString s ++ "s"
  else if m2 ≠ 0 then toString m2 ++ "m " ++ toString s ++ "s"
  else toString s ++ "s"

/-- Embeds `set_step_done(index)` (source lines 630-636). -/
def set_step_done (index : Int) (now : Nat) (s : UIState) : UIState :=
  if 0 ≤ index ∧ index < (s.step_labels.length : Int) then
    let i := index.toNat
    let title := s.current_steps.getD i ""
    let p := get_and_clear_step_duration now s
    let duration_txt := format_duration p.1
    let suffix := if duration_txt ≠ "" then " (" ++ duration_txt ++ ")" else ""
    let s1 := p.2
    let lbl : StepLabel :=
      { text := "[DONE] " ++ title ++ suffix, fg := "green", bold := false, bg := "default" }
    increment_overall_progress { s1 with step_labels := s1.step_labels.set i lbl }
  else s

/-- Embeds `set_step_error(index)` (source lines 638-642). -/
def set_step_error (index : Int) (s : UIState) : UIState :=
  if 0 ≤ index ∧ index < (s.step_labels.length : Int) then
    let i := index.toNat
    let title := s.current_steps.getD i ""
    let lbl : StepLabel :=
      { text := "[ERROR] " ++ title, fg := "red", bold := false, bg := "default" }
    update_overall_progress { s with step_labels := s.step_labels.set i lbl }
  else s

/-- Embeds `finish_steps_timing()` (source lines 697-701). -/
def finish_steps_timing (s : UIState) : UIState :=
  { s with install_start_time := none, current_step_start_time := none,
           elapsed_job_scheduled := false }

/-- One status-transition call made by a workflow against the panel. -/
inductive StepOp where
  | start (index : Int) (now : Nat)
  | done (index : Int) (now : Nat)
  | fail (index : Int)
deriving DecidableEq

def applyOp (s : UIState) : StepOp → UIState
  | .start i now => set_step_running i now s
  | .done i now => set_step_done i now s
  | .fail i => set_step_error i s

def runOps (s : UIState) : List StepOp → UIState
  | [] => s
  | op :: ops => runOps (applyOp s op) ops

/-- The in-bounds `Done` transitions of an op sequence (`set_step_done`
calls that pass the index guard), with the index they hit. -/
def doneIndicesIB (len : Nat) : List StepOp → List Nat
  | [] => []
  | .done i _ :: ops =>
    if 0 ≤ i ∧ i < (len : Int) then i.toNat :: doneIndicesIB len ops
    else doneIndicesIB len ops
  | _ :: ops => doneIndicesIB len ops

theorem getD_set_self {α : Type} (l : List α) (i : Nat) (v d : α) :
    ∀ (_ : i < l.length), (l.set i v).getD i d = v := by
  induction l generalizing i with
  | nil => intro h; cases h
  | cons x xs ih =>
    intro h
    cases i with
    | zero => rfl
    | succ n => exact ih n (Nat.lt_of_succ_lt_succ h)

theorem getD_set_ne {α : Type} (l : List α) (i j : Nat) (v d : α) (hij : i ≠ j) :
    (l.set i v).getD j d = l.getD j d := by
  induction l generalizing i j with
  | nil => cases i <;> rfl
  | cons x xs ih =>
    cases i with
    | zero =>
      cases j with
      | zero => exact absurd rfl hij
      | succ m => rfl
    | succ n =>
      cases j with
      | zero => rfl
      | succ m => exact ih n m fun hnm => hij (by rw [hnm])

theorem getD_map_initLabel_bg (ts : List String) (j : Nat) (d : StepLabel) :
    ∀ (_ : j < ts.length), ((ts.map initLabel).getD j d).bg = "default" := by
  induction ts generalizing j with
  | nil => intro h; cases h
  | cons t ts ih =>
    intro h
    cases j with
    | zero => rfl
    | succ n => exact ih n (Nat.lt_of_succ_lt_succ h)

theorem demotedLabels_length (s : UIState) :
    (demotedLabels s).length = s.step_labels.length := by
  unfold demotedLabels
  rcases s.current_step_index with _ | j
  · rfl
  · by_cases hj : j < s.step_labels.length
    · simp [hj]
    · simp [hj]

theorem get_and_clear_frame (now : Nat) (s : UIState) :
    (get_and_clear_step_duration now s).2.step_labels = s.step_labels
    ∧ (get_and_clear_step_duration now s).2.current_steps = s.current_steps
    ∧ (get_and_clear_step_duration now s).2.current_step_index = s.current_step_index
    ∧ (get_and_clear_step_duration now s).2.overall_steps_done = s.overall_steps_done
    ∧ (get_and_clear_step_duration now s).2.overall_steps_total = s.overall_steps_total
    ∧ (get_and_clear_step_duration now s).2.overall_progress_value
        = s.overall_progress_value := by
  unfold get_and_clear_step_duration
  rcases s.current_step_start_time with _ | t <;> exact ⟨rfl, rfl, rfl, rfl, rfl, rfl⟩

/-- The display invariant of the overall progress bar/label: whenever the
percentage expression for the current counters evaluates without
overflow, its value is exactly what is displayed. -/
def progressConsistent (s : UIState) : Prop :=
  ∀ p, pctValue s.overall_steps_done s.overall_steps_total = some p →
    s.overall_progress_value = p

theorem update_overall_progress_consistent (s : UIState) :
    progressConsistent (update_overall_progress s) := by
  intro p hp
  simp only [update_overall_progress] at hp ⊢
  rw [hp]
  rfl

theorem set_step_running_frame (i : Int) (now : Nat) (s : UIState) :
    (set_step_running i now s).step_labels.length = s.step_labels.length
    ∧ (set_step_running i now s).overall_steps_total = s.overall_steps_total
    ∧ (set_step_running i now s).overall_steps_done = s.overall_steps_done
    ∧ (set_step_running i now s).overall_progress_value = s.overall_progress_value := by
  unfold set_step_running start_step_timer
  by_cases h : 0 ≤ i ∧ i < (s.step_labels.length : Int)
  · rw [if_pos h]
    exact ⟨by simp [List.length_set, demotedLabels_length], rfl, rfl, rfl⟩
  · rw [if_neg h]
    exact ⟨rfl, rfl, rfl, rfl⟩

theorem set_step_running_consistent (i : Int) (now : Nat) (s : UIState)
    (h : progressConsistent s) : progressConsistent (set_step_running i now s) := by
  obtain ⟨-, htot, hdone, hval⟩ := set_step_running_frame i now s
  intro p hp
  rw [hdone, htot] at hp
  rw [hval]
  exact h p hp

theorem set_step_done_frame (i : Int) (now : Nat) (s : UIState) :
    (set_step_done i now s).step_labels.length = s.step_labels.length
    ∧ (set_step_done i now s).overall_steps_total = s.overall_steps_total
    ∧ (set_step_done i now s).overall_steps_done
        = s.overall_steps_done
          + (if 0 ≤ i ∧ i < (s.step_labels.length : Int) then 1 else 0) := by
  unfold set_step_done increment_overall_progress update_overall_progress
  by_cases h : 0 ≤ i ∧ i < (s.step_labels.length : Int)
  · rw [if_pos h, if_pos h]
    obtain ⟨hl, _, _, hd, ht, _⟩ := get_and_clear_frame now s
    exact ⟨by simp [List.length_set, hl], ht, by simp [hd]⟩
  · rw [if_neg h, if_neg h]
    exact ⟨rfl, rfl, by omega⟩

theorem set_step_done_consistent (i : Int) (now : Nat) (s : UIState)
    (h : progressConsistent s) : progressConsistent (set_step_done i now s) := by
  by_cases hg : 0 ≤ i ∧ i < (s.step_labels.length : Int)
  · unfold set_step_done increment_overall_progress
    rw [if_pos hg]
    exact update_overall_progress_consistent _
  · unfold set_step_done
    rw [if_neg hg]
    exact h

theorem set_step_error_frame (i : Int) (s : UIState) :
    (set_step_error i s).step_labels.length = s.step_labels.length
    ∧ (set_step_error i s).overall_steps_total = s.overall_steps_total
    ∧ (set_step_error i s).overall_steps_done = s.overall_steps_done := by
  unfold set_step_error update_overall_progress
  by_cases h : 0 ≤ i ∧ i < (s.step_labels.length : Int)
  · rw [if_pos h]
    exact ⟨by simp [List.length_set], rfl, rfl⟩
  · rw [if_neg h]
    exact ⟨rfl, rfl, rfl⟩

theorem set_step_error_consistent (i : Int) (s : UIState)
    (h : progressConsistent s) : progressConsistent (set_step_error i s) := by
  by_cases hg : 0 ≤ i ∧ i < (s.step_labels.length : Int)
  · unfold set_step_error
    rw [if_pos hg]
    exact update_overall_progress_consistent _
  · unfold set_step_error
    rw [if_neg hg]
    exact h

theorem runOps_accounting (ops : List StepOp) :
    ∀ s : UIState,
      (runOps s ops).overall_steps_done
          = s.overall_steps_done + (doneIndicesIB s.step_labels.length ops).length
      ∧ (runOps s ops).overall_steps_total = s.overall_steps_total
      ∧ (runOps s ops).step_labels.length = s.step_labels.length := by
  induction ops with
  | nil => intro s; exact ⟨by simp [runOps, doneIndicesIB], rfl, rfl⟩
  | cons op ops ih =>
    intro s
    obtain ⟨ihd, iht, ihl⟩ := ih (applyOp s op)
    rw [runOps]
    cases op with
    | start i now =>
      obtain ⟨hlen, htot, hdone, -⟩ := set_step_running_frame i now s
      simp only [applyOp] at ihd iht ihl ⊢
      refine ⟨?_, iht.trans htot, ihl.trans hlen⟩
      rw [ihd, hlen, hdone]
      simp [doneIndicesIB]
    | done i now =>
      obtain ⟨hlen, htot, hdone⟩ := set_step_done_frame i now s
      simp only [applyOp] at ihd iht ihl ⊢
      refine ⟨?_, iht.trans htot, ihl.trans hlen⟩
      rw [ihd, hlen, hdone]
      by_cases hg : 0 ≤ i ∧ i < (s.step_labels.length : Int)
      · simp [doneIndicesIB, hg]
        omega
      · simp [doneIndicesIB, hg]
    | fail i =>
      obtain ⟨hlen, htot, hdone⟩ := set_step_error_frame i s
      simp only [applyOp] at ihd iht ihl ⊢
      refine ⟨?_, iht.trans htot, ihl.trans hlen⟩
      rw [ihd, hlen, hdone]
      simp [doneIndicesIB]

theorem runOps_consistent (ops : List StepOp) :
    ∀ s : UIState, progressConsistent s → progressConsistent (runOps s ops) := by
  induction ops with
  | nil => intro s h; exact h
  | cons op ops ih =>
    intro s h
    rw [runOps]
    refine ih (applyOp s op) ?_
    cases op with
    | start i now => exact set_step_running_consistent i now s h
    | done i now => exact set_step_done_consistent i now s h
    | fail i => exact set_step_error_consistent i s h

theorem init_steps_panel_fields (titles : List String) (now : Nat) (s0 : UIState) :
    (init_steps_panel titles now s0).overall_steps_done = 0
    ∧ (init_steps_panel titles now s0).overall_steps_total = titles.length
    ∧ (init_steps_panel titles now s0).step_labels.length = titles.length
    ∧ progressConsistent (init_steps_panel titles now s0) := by
  refine ⟨rfl, rfl, by simp [init_steps_panel, update_overall_progress], ?_⟩
  exact update_overall_progress_consistent _

theorem doneIndicesIB_lt (len : Nat) (ops : List StepOp) :
    ∀ x ∈ doneIndicesIB len ops, x < len := by
  induction ops with
  | nil => intro x hx; cases hx
  | cons op ops ih =>
    intro x hx
    cases op with
    | start i now => exact ih x hx
    | fail i => exact ih x hx
    | done i now =>
      rw [doneIndicesIB] at hx
      by_cases hg : 0 ≤ i ∧ i < (len : Int)
      · rw [if_pos hg] at hx
        rcases List.mem_cons.mp hx with rfl | hx
        · omega
        · exact ih x hx
      · rw [if_neg hg] at hx
        exact ih x hx

theorem nodup_bounded_length_le (l : List Nat) (n : Nat)
    (hlt : ∀ x ∈ l, x < n) (hnd : l.Nodup) : l.length ≤ n := by
  have h1 : l.toFinset.card = l.length := List.toFinset_card_of_nodup hnd
  have h2 : l.toFinset ⊆ Finset.range n := by
    intro x hx
    exact Finset.mem_range.mpr (hlt x (List.mem_toFinset.mp hx))
  have h3 := Finset.card_le_card h2
  rw [h1, Finset.card_range] at h3
  exact h3

/-- C1 (as amended): after `init_steps_panel` and any in-bounds sequence of
transitions, `overall_steps_done` equals the number of in-bounds
`set_step_done` calls (a step completed more than once is counted each
time); `overall_steps_total` stays the number of declared steps; whenever
the percentage expression `int((done / max(total,1)) * 100)` evaluates
without overflow, its binary64-computed value is exactly what is
displayed (the float value, not the exact floor — see the
counterexample); and whenever no step index is completed twice,
`overall_steps_done` also equals the number of distinct steps ever
transitioned to Done and never exceeds `overall_steps_total`. -/
theorem overall_progress_accounting (s0 : UIState) (titles : List String) (now : Nat)
    (ops : List StepOp) :
    (runOps (init_steps_panel titles now s0) ops).overall_steps_done
        = (doneIndicesIB titles.length ops).length
    ∧ (runOps (init_steps_panel titles now s0) ops).overall_steps_total = titles.length
    ∧ (∀ p, pctValue (runOps (init_steps_panel titles now s0) ops).overall_steps_done
          (runOps (init_steps_panel titles now s0) ops).overall_steps_total = some p →
        (runOps (init_steps_panel titles now s0) ops).overall_progress_value = p)
    ∧ ((doneIndicesIB titles.length ops).Nodup →
        (runOps (init_steps_panel titles now s0) ops).overall_steps_done
          ≤ (runOps (init_steps_panel titles now s0) ops).overall_steps_total) := by
  obtain ⟨hd0, ht0, hl0, hp0⟩ := init_steps_panel_fields titles now s0
  obtain ⟨hd, ht, -⟩ := runOps_accounting ops (init_steps_panel titles now s0)
  rw [hl0] at hd
  refine ⟨by rw [hd, hd0]; omega, by rw [ht, ht0], ?_, ?_⟩
  · exact runOps_consistent ops _ hp0
  · intro hnd
    rw [hd, hd0, ht, ht0]
    have := nodup_bounded_length_le (doneIndicesIB titles.length ops) titles.length
      (doneIndicesIB_lt titles.length ops) hnd
    omega

/-- Witness for `overall_progress_accounting`: a two-step run where each
step is completed exactly once ends with `overall_steps_done = 2 = total`
and 100% displayed (the percentage expression evaluates to exactly 100
without overflow). -/
theorem overall_progress_accounting_witness :
    (runOps (init_steps_panel ["a", "b"] 0 blankUI)
        [StepOp.start 0 0, StepOp.done 0 3, StepOp.start 1 3, StepOp.done 1 7]).overall_steps_done
      ≤ (runOps (init_steps_panel ["a", "b"] 0 blankUI)
        [StepOp.start 0 0, StepOp.done 0 3, StepOp.start 1 3, StepOp.done 1 7]).overall_steps_total
    ∧ (runOps (init_steps_panel ["a", "b"] 0 blankUI)
        [StepOp.start 0 0, StepOp.done 0 3, StepOp.start 1 3, StepOp.done 1 7]).overall_progress_value
      = 100 :=
  ⟨(overall_progress_accounting blankUI ["a", "b"] 0
      [StepOp.start 0 0, StepOp.done 0 3, StepOp.start 1 3, StepOp.done 1 7]).2.2.2
    (by decide),
   (overall_progress_accounting blankUI ["a", "b"] 0
      [StepOp.start 0 0, StepOp.done 0 3, StepOp.start 1 3, StepOp.done 1 7]).2.2.1
    100 (by decide)⟩

set_option maxRecDepth 8000 in
/-- C1 counterexample, two violations at concrete inputs.  First, the code
never guards against completing the same step twice: on a one-step panel,
two in-bounds `set_step_done(0)` calls drive `overall_steps_done` to 2
while `overall_steps_total` is 1, with 200% displayed.  Second, the
displayed percentage is the binary64 value of `int((done / total) * 100)`,
not the exact floor: after 29 distinct in-bounds completions on a 50-step
panel the code displays 57 (since the double nearest 29/50 is slightly
below 0.58 and the rounded product is slightly below 58), while
`floor(29 * 100 / 50) = 58`. -/
theorem double_done_exceeds_total :
    ((runOps (init_steps_panel ["a"] 0 blankUI)
        [StepOp.done 0 0, StepOp.done 0 0]).overall_steps_done = 2
      ∧ (runOps (init_steps_panel ["a"] 0 blankUI)
        [StepOp.done 0 0, StepOp.done 0 0]).overall_steps_total = 1
      ∧ (runOps (init_steps_panel ["a"] 0 blankUI)
        [StepOp.done 0 0, StepOp.done 0 0]).overall_progress_value = 200)
    ∧ ((runOps (init_steps_panel (List.replicate 50 "s") 0 blankUI)
        ((List.range 29).map (fun k => StepOp.done (k : Int) 0))).overall_steps_done = 29
      ∧ (runOps (init_steps_panel (List.replicate 50 "s") 0 blankUI)
        ((List.range 29).map (fun k => StepOp.done (k : Int) 0))).overall_steps_total = 50
      ∧ (runOps (init_steps_panel (List.replicate 50 "s") 0 blankUI)
        ((List.range 29).map (fun k => StepOp.done (k : Int) 0))).overall_progress_value = 57
      ∧ 29 * 100 / 50 = 58) := by
  exact ⟨⟨by decide, by decide, by decide⟩, ⟨by decide, by decide, by decide, by decide⟩⟩

/-- The running-step highlight invariant: any label carrying the
`#fffbe6` current-step background is the step `current_step_index`
points at (hence at most one label is highlighted). -/
def highlightInv (s : UIState) : Prop :=
  ∀ j, j < s.step_labels.length →
    (s.step_labels.getD j defaultLabel).bg = "#fffbe6" →
    s.current_step_index = some j

theorem highlightInv_init (titles : List String) (now : Nat) (s0 : UIState) :
    highlightInv (init_steps_panel titles now s0) := by
  intro j hj hbg
  exfalso
  have hlab : (init_steps_panel titles now s0).step_labels = titles.map initLabel := rfl
  rw [hlab] at hj hbg
  have hdef := getD_map_initLabel_bg titles j defaultLabel (by simpa using hj)
  rw [hdef] at hbg
  exact absurd hbg (by decide)

theorem set_step_running_highlightInv (i : Int) (now : Nat) (s : UIState)
    (h : highlightInv s) : highlightInv (set_step_running i now s) := by
  by_cases hg : 0 ≤ i ∧ i < (s.step_labels.length : Int)
  · simp only [set_step_running, if_pos hg, start_step_timer]
    intro j hj hbg
    simp only at hj hbg ⊢
    by_cases hji : i.toNat = j
    · simp [hji]
    · rw [getD_set_ne _ _ _ _ _ hji] at hbg
      rw [List.length_set, demotedLabels_length] at hj
      rcases hc : s.current_step_index with _ | k
      · have hd : demotedLabels s = s.step_labels := by simp only [demotedLabels, hc]
        rw [hd] at hbg
        have := h j hj hbg
        rw [hc] at this
        cases this
      · by_cases hk : k < s.step_labels.length
        · have hd : demotedLabels s
              = s.step_labels.set k (demoteLabel (s.step_labels.getD k defaultLabel)) := by
            simp only [demotedLabels, hc]
            rw [if_pos hk]
          by_cases hkj : k = j
          · subst hkj
            rw [hd, getD_set_self _ _ _ _ hk] at hbg
            simp [demoteLabel] at hbg
          · rw [hd, getD_set_ne _ _ _ _ _ hkj] at hbg
            have := h j hj hbg
            rw [hc] at this
            exact absurd (Option.some_inj.mp this) hkj
        · have hd : demotedLabels s = s.step_labels := by
            simp only [demotedLabels, hc]
            rw [if_neg hk]
          rw [hd] at hbg
          have := h j hj hbg
          rw [hc] at this
          have hkj : k = j := Option.some_inj.mp this
          exact absurd (hkj ▸ hj) hk
  · simp only [set_step_running, if_neg hg]
    exact h

theorem set_step_done_highlightInv (i : Int) (now : Nat) (s : UIState)
    (h : highlightInv s) : highlightInv (set_step_done i now s) := by
  by_cases hg : 0 ≤ i ∧ i < (s.step_labels.length : Int)
  · obtain ⟨hpl, _, hpc, _, _, _⟩ := get_and_clear_frame now s
    simp only [set_step_done, if_pos hg, increment_overall_progress, update_overall_progress]
    intro j hj hbg
    simp only at hj hbg ⊢
    by_cases hji : i.toNat = j
    · subst hji
      rw [List.length_set, hpl] at hj
      rw [getD_set_self _ _ _ _ (by rw [hpl]; omega)] at hbg
      simp at hbg
    · rw [getD_set_ne _ _ _ _ _ hji, hpl] at hbg
      rw [List.length_set, hpl] at hj
      rw [hpc]
      exact h j hj hbg
  · simp only [set_step_done, if_neg hg]
    exact h

theorem set_step_error_highlightInv (i : Int) (s : UIState)
    (h : highlightInv s) : highlightInv (set_step_error i s) := by
  by_cases hg : 0 ≤ i ∧ i < (s.step_labels.length : Int)
  · simp only [set_step_error, if_pos hg, update_overall_progress]
    intro j hj hbg
    simp only at hj hbg ⊢
    by_cases hji : i.toNat = j
    · subst hji
      rw [List.length_set] at hj
      rw [getD_set_self _ _ _ _ (by omega)] at hbg
      simp at hbg
    · rw [getD_set_ne _ _ _ _ _ hji] at hbg
      rw [List.length_set] at hj
      exact h j hj hbg
  · simp only [set_step_error, if_neg hg]
    exact h

theorem runOps_highlightInv (ops : List StepOp) :
    ∀ s : UIState, highlightInv s → highlightInv (runOps s ops) := by
  induction ops with
  | nil => intro s h; exact h
  | cons op ops ih =>
    intro s h
    rw [runOps]
    refine ih (applyOp s op) ?_
    cases op with
    | start i now => exact set_step_running_highlightInv i now s h
    | done i now => exact set_step_done_highlightInv i now s h
    | fail i => exact set_step_error_highlightInv i s h

/-- C7 (as amended): after `init_steps_panel` and any sequence of
transitions, at most one step carries the running highlight — the bold,
`#fffbe6`-background styling that `set_step_running` applies to the newly
current step and removes from the previously current one.  (The textual
`[RUNNING]` prefix does not satisfy this: see the counterexample.) -/
theorem at_most_one_running_highlight (s0 : UIState) (titles : List String) (now : Nat)
    (ops : List StepOp) (j k : Nat)
    (hj : j < (runOps (init_steps_panel titles now s0) ops).step_labels.length)
    (hk : k < (runOps (init_steps_panel titles now s0) ops).step_labels.length)
    (hbj : (((runOps (init_steps_panel titles now s0) ops).step_labels.getD j
        defaultLabel)).bg = "#fffbe6")
    (hbk : (((runOps (init_steps_panel titles now s0) ops).step_labels.getD k
        defaultLabel)).bg = "#fffbe6") :
    j = k := by
  have hinv := runOps_highlightInv ops _ (highlightInv_init titles now s0)
  have h1 := hinv j hj hbj
  have h2 := hinv k hk hbk
  rw [h1] at h2
  exact Option.some_inj.mp h2

/-- Witness for `at_most_one_running_highlight`: after starting step 0 on
a fresh two-step panel, label 0 carries the highlight, and the theorem
applies with `j = k = 0`. -/
theorem at_most_one_running_highlight_witness :
    (((runOps (init_steps_panel ["a", "b"] 0 blankUI) [StepOp.start 0 0]).step_labels.getD 0
        defaultLabel)).bg = "#fffbe6"
    ∧ (0 : Nat) = 0 :=
  ⟨rfl, at_most_one_running_highlight blankUI ["a", "b"] 0 [StepOp.start 0 0] 0 0
    (by decide) (by decide) rfl rfl⟩

/-- C7 counterexample: immediately after `init_steps_panel` both steps of
a two-step run display the `[RUNNING]` status text (the labels are created
that way), so more than one step is in the displayed Running state; and
Done is not terminal — a `set_step_running(0)` after `set_step_done(0)`
relabels the finished step `[RUNNING]` again. -/
theorem init_panel_all_steps_running :
    ((init_steps_panel ["a", "b"] 0 blankUI).step_labels.getD 0 defaultLabel).text
        = "[RUNNING] a"
    ∧ ((init_steps_panel ["a", "b"] 0 blankUI).step_labels.getD 1 defaultLabel).text
        = "[RUNNING] b"
    ∧ ((runOps (init_steps_panel ["a", "b"] 0 blankUI)
        [StepOp.done 0 0, StepOp.start 0 0]).step_labels.getD 0 defaultLabel).text
        = "[RUNNING] a" :=
  ⟨rfl, rfl, rfl⟩

/-- C10: for every index outside `0 <= index < len(step_labels)` —
including negative indices — `set_step_done` and `set_step_error` are
complete no-ops: the whole state (labels, `overall_steps_done`, displayed
percentage, timers, current step) is returned unchanged. -/
theorem set_step_done_error_out_of_bounds_noop (s : UIState) (index : Int) (now : Nat)
    (h : ¬(0 ≤ index ∧ index < (s.step_labels.length : Int))) :
    set_step_done index now s = s ∧ set_step_error index s = s := by
  unfold set_step_done set_step_error
  rw [if_neg h, if_neg h]
  exact ⟨rfl, rfl⟩

/-- Witness for `set_step_done_error_out_of_bounds_noop`: on a fresh
one-step panel, `set_step_done(-1)` and `set_step_error(-1)` change
nothing. -/
theorem set_step_done_error_out_of_bounds_noop_witness :
    set_step_done (-1) 5 (init_steps_panel ["a"] 0 blankUI)
        = init_steps_panel ["a"] 0 blankUI
    ∧ set_step_error (-1) (init_steps_panel ["a"] 0 blankUI)
        = init_steps_panel ["a"] 0 blankUI :=
  set_step_done_error_out_of_bounds_noop (init_steps_panel ["a"] 0 blankUI) (-1) 5 (by decide)

/-! ## Installation step list (`install_jira`, source lines 715-816)

The non-advanced configuration branch of `install_jira` decides the port
and whether a MySQL database is provisioned purely from the version
prefix; the worker `task` then declares the visual step list from the
`is_mysql` flag. -/

/-- Python `str.startswith` on character lists. -/
def charsBeginWith : List Char → List Char → Bool
  | [], _ => true
  | _ :: _, [] => false
  | a :: as, b :: bs => a == b && charsBeginWith as bs

/-- Embeds `version.startswith(p)`. -/
def pyStartsWith (version p : String) : Bool :=
  charsBeginWith p.data version.data

/-- Version-prefix dispatch of `install_jira`: Jira 8./9. use the built-in
database on port 8081, Jira 10./11. use MySQL on port 8080, anything else
is rejected as unsupported (`none`). -/
def versionConfig (version : String) : Option (Nat × Bool) :=
  if pyStartsWith version "8." || pyStartsWith version "9." then some (8081, false)
  else if pyStartsWith version "10." || pyStartsWith version "11." then some (8080, true)
  else none

/-- The step list `task` passes to `init_steps_panel` (source lines
806-813). -/
def installSteps (is_mysql : Bool) : List String :=
  ["Create/check network", "Pull Jira image"]
    ++ (if is_mysql then
          ["Pull MySQL image", "Start MySQL", "Download/extract JDBC", "Start Jira",
           "Patch JVM args", "Restart Jira", "Finalize"]
        else
          ["Start Jira", "Patch JVM args", "Restart Jira", "Finalize"])

/-- C2 (as amended): version `"9.15.0"` needs no external database and its
pipeline is exactly the six steps network → pull app image → start app →
patch runtime args → restart → finalize; version `"10.2.6"` requires MySQL
and its pipeline is exactly the database-inclusive list — which has nine
steps (network, pull app image, pull DB image, start DB, fetch/extract DB
driver, start app, patch runtime args, restart, finalize), not eight. -/
theorem install_step_lists :
    versionConfig "9.15.0" = some (8081, false)
    ∧ installSteps false
        = ["Create/check network", "Pull Jira image", "Start Jira", "Patch JVM args",
           "Restart Jira", "Finalize"]
    ∧ (installSteps false).length = 6
    ∧ versionConfig "10.2.6" = some (8080, true)
    ∧ installSteps true
        = ["Create/check network", "Pull Jira image", "Pull MySQL image", "Start MySQL",
           "Download/extract JDBC", "Start Jira", "Patch JVM args", "Restart Jira",
           "Finalize"]
    ∧ (installSteps true).length = 9 := by
  refine ⟨by decide, rfl, rfl, by decide, rfl, rfl⟩

/-- C2 counterexample: the claim calls the database-inclusive pipeline an
"8-step" list, but the step list produced for version `"10.2.6"` has nine
entries. -/
theorem mysql_step_list_not_eight :
    versionConfig "10.2.6" = some (8080, true) ∧ (installSteps true).length ≠ 8 := by
  refine ⟨by decide, by decide⟩

/-! ## Self-update install protocol (`create_backup` / `restore_backup` /
`install_update`, source lines 108-144 and 205-236, and the rollback call
in `perform_update`, lines 266-269)

The filesystem is an association list from absolute path to file content.
`os.remove`, `shutil.copy2` and `shutil.move` may raise; each potentially
raising call of the protocol has an explicit fault flag (`true` = the call
raises), and a raising call leaves the filesystem unchanged.  `copy2` and
`move` also raise when their source is missing.  The executable path is
`cur`; the backup path is `cur + ".backup"` (`UPDATE_BACKUP_EXT`). -/

def FS : Type := List (String × String)

def fsGet : FS → String → Option String
  | [], _ => none
  | (q, c) :: fs, p => if q = p then some c else fsGet fs p

def fsRemove (fs : FS) (p : String) : FS :=
  fs.filter (fun e => e.1 ≠ p)

def fsSet (fs : FS) (p c : String) : FS :=
  (p, c) :: fsRemove fs p

def fsHas (fs : FS) (p : String) : Bool :=
  (fsGet fs p).isSome

/-- Fault flags for one `install_update` run: each `true` makes the
corresponding OS call raise. -/
structure UpdateFaults where
  failRemoveStale : Bool
  failCopyBackup : Bool
  failRemoveCurrent : Bool
  failMoveTemp : Bool
  failCleanupBackup : Bool
deriving DecidableEq

/-- The `shutil.copy2(current_path, backup_path)` tail of `create_backup`. -/
def createCopy (cur bak : String) (fs : FS) (f : UpdateFaults) : Option String × FS :=
  if f.failCopyBackup then (none, fs)
  else
    match fsGet fs cur with
    | none => (none, fs)
    | some c => (some bak, fsSet fs bak c)

/-- Embeds `create_backup()` (source lines 108-124): remove a stale backup of the
same name, then copy the running executable to the backup path; `none`
models the `except` branch returning `None`. -/
def create_backup (cur : String) (fs : FS) (f : UpdateFaults) : Option String × FS :=
  let bak := cur ++ ".backup"
  if fsHas fs bak then
    if f.failRemoveStale then (none, fs)
    else createCopy cur bak (fsRemove fs bak) f
  else createCopy cur bak fs f

/-- Fault flags for one `restore_backup` run. -/
structure RestoreFaults where
  failRemoveCurrent : Bool
  failMoveBack : Bool
deriving DecidableEq

/-- The `shutil.move(backup_path, current_path)` tail of `restore_backup`. -/
def restoreMove (cur bak : String) (fs : FS) (f : RestoreFaults) : Bool × FS :=
  if f.failMoveBack then (false, fs)
  else
    match fsGet fs bak with
    | none => (false, fs)
    | some c => (true, fsSet (fsRemove fs bak) cur c)

/-- Embeds `restore_backup()` (source lines 126-144): if a backup exists, remove
the current executable (when present) and move the backup into its place;
`false` models both the no-backup case and the `except` branch. -/
def restore_backup (cur : String) (fs : FS) (f : RestoreFaults) : Bool × FS :=
  let bak := cur ++ ".backup"
  if fsHas fs bak then
    if fsHas fs cur then
      if f.failRemoveCurrent then (false, fs)
      else restoreMove cur bak (fsRemove fs cur) f
    else restoreMove cur bak fs f
  else (false, fs)

/-- The `shutil.move(temp_path, current_path)` and backup-cleanup tail of
`install_update`; cleanup failures are swallowed (`except Exception: pass`). -/
def moveTempStep (cur temp bak : String) (fs : FS) (f : UpdateFaults) : Bool × FS :=
  if f.failMoveTemp then (false, fs)
  else
    match fsGet fs temp with
    | none => (false, fs)
    | some c =>
      let fs2 := fsSet (fsRemove fs temp) cur c
      if f.failCleanupBackup then (true, fs2) else (true, fsRemove fs2 bak)

/-- Embeds `install_update(temp_path)` (source lines 205-236): back up the running
executable first (aborting before touching it if that fails), then remove
the live executable and move the downloaded temp file into its place, and
finally try to delete the backup. -/
def install_update (cur temp : String) (fs : FS) (f : UpdateFaults) : Bool × FS :=
  match create_backup cur fs f with
  | (none, fs1) => (false, fs1)
  | (some bak, fs1) =>
    if fsHas fs1 cur then
      if f.failRemoveCurrent then (false, fs1)
      else moveTempStep cur temp bak (fsRemove fs1 cur) f
    else moveTempStep cur temp bak fs1 f

/-- The failure tail of `perform_update` (source lines 266-269): when
`install_update` fails, `restore_backup` is attempted before the failure
is reported. -/
def install_update_with_rollback (cur temp : String) (fs : FS) (f : UpdateFaults)
    (rf : RestoreFaults) : Bool × FS :=
  match install_update cur temp fs f with
  | (true, fs1) => (true, fs1)
  | (false, fs1) => (false, (restore_backup cur fs1 rf).2)

theorem fsGet_set_self (fs : FS) (p c : String) : fsGet (fsSet fs p c) p = some c := by
  simp [fsSet, fsGet]

theorem fsGet_remove_ne (fs : FS) (p q : String) (h : p ≠ q) :
    fsGet (fsRemove fs p) q = fsGet fs q := by
  induction fs with
  | nil => rfl
  | cons e fs ih =>
    rcases e with ⟨r, c⟩
    by_cases hr : r = p
    · subst hr
      simp only [fsRemove, List.filter]
      rw [fsGet]
      rw [if_neg (by simpa using h)]
      simpa [fsRemove] using ih
    · simp only [fsRemove, List.filter]
      rw [decide_eq_true_iff.mpr]
      · rw [fsGet, fsGet]
        by_cases hq : r = q
        · rw [if_pos hq, if_pos hq]
        · rw [if_neg hq, if_neg hq]
          simpa [fsRemove] using ih
      · exact hr

theorem fsGet_remove_self (fs : FS) (p : String) : fsGet (fsRemove fs p) p = none := by
  induction fs with
  | nil => rfl
  | cons e fs ih =>
    rcases e with ⟨r, c⟩
    by_cases hr : r = p
    · subst hr
      simpa [fsRemove, List.filter] using ih
    · simp only [fsRemove, List.filter]
      rw [decide_eq_true_iff.mpr hr]
      rw [fsGet, if_neg hr]
      simpa [fsRemove] using ih

theorem fsGet_set_ne (fs : FS) (p q c : String) (h : p ≠ q) :
    fsGet (fsSet fs p c) q = fsGet fs q := by
  rw [fsSet, fsGet, if_neg h]
  exact fsGet_remove_ne fs p q h

theorem ne_append_backup (s : String) : s ≠ s ++ ".backup" := by
  intro h
  have hl := congrArg String.length h
  rw [String.length_append] at hl
  have : (".backup" : String).length = 7 := rfl
  omega

theorem create_backup_chars (cur : String) (fs : FS) (f : UpdateFaults) :
    ((create_backup cur fs f).1 = none →
        fsGet (create_backup cur fs f).2 cur = fsGet fs cur
        ∧ ((create_backup cur fs f).2 = fs
            ∨ (create_backup cur fs f).2 = fsRemove fs (cur ++ ".backup")))
    ∧ ((create_backup cur fs f).1.isSome →
        ∃ c, fsGet fs cur = some c
          ∧ (create_backup cur fs f).1 = some (cur ++ ".backup")
          ∧ ∃ fs0, (fs0 = fs ∨ fs0 = fsRemove fs (cur ++ ".backup"))
              ∧ (create_backup cur fs f).2 = fsSet fs0 (cur ++ ".backup") c) := by
  have hcb : cur ≠ cur ++ ".backup" := ne_append_backup cur
  unfold create_backup createCopy
  by_cases hstale : fsHas fs (cur ++ ".backup") = true
  · rw [if_pos hstale]
    by_cases hrs : f.failRemoveStale = true
    · rw [if_pos hrs]
      exact ⟨fun _ => ⟨rfl, Or.inl rfl⟩, fun hs => by cases hs⟩
    · rw [if_neg hrs]
      by_cases hcp : f.failCopyBackup = true
      · rw [if_pos hcp]
        exact ⟨fun _ => ⟨fsGet_remove_ne fs _ cur (Ne.symm hcb), Or.inr rfl⟩,
          fun hs => by cases hs⟩
      · rw [if_neg hcp]
        rcases hg : fsGet (fsRemove fs (cur ++ ".backup")) cur with _ | c <;> dsimp only
        · refine ⟨fun _ => ⟨?_, Or.inr rfl⟩, fun hs => by simp at hs⟩
          exact fsGet_remove_ne fs _ cur (Ne.symm hcb)
        · refine ⟨fun hn => by simp at hn, fun _ => ?_⟩
          rw [fsGet_remove_ne fs _ cur (Ne.symm hcb)] at hg
          exact ⟨c, hg, rfl, fsRemove fs (cur ++ ".backup"), Or.inr rfl, rfl⟩
  · rw [if_neg hstale]
    by_cases hcp : f.failCopyBackup = true
    · rw [if_pos hcp]
      exact ⟨fun _ => ⟨rfl, Or.inl rfl⟩, fun hs => by cases hs⟩
    · rw [if_neg hcp]
      rcases hg : fsGet fs cur with _ | c <;> dsimp only
      · exact ⟨fun _ => ⟨hg, Or.inl rfl⟩, fun hs => by simp at hs⟩
      · exact ⟨fun hn => by simp at hn, fun _ => ⟨c, rfl, rfl, fs, Or.inl rfl, rfl⟩⟩

theorem restore_backup_restores (cur orig : String) (fsx : FS)
    (hbak : fsGet fsx (cur ++ ".backup") = some orig) :
    fsGet (restore_backup cur fsx ⟨false, false⟩).2 cur = some orig := by
  have hcb : cur ≠ cur ++ ".backup" := ne_append_backup cur
  unfold restore_backup restoreMove
  have hhas : fsHas fsx (cur ++ ".backup") = true := by simp [fsHas, hbak]
  rw [if_pos hhas]
  by_cases hc : fsHas fsx cur = true
  · rw [if_pos hc]
    dsimp only
    rw [if_neg (by decide : ¬(false = true))]
    rw [if_neg (by decide : ¬(false = true))]
    have hb2 : fsGet (fsRemove fsx cur) (cur ++ ".backup") = some orig := by
      rw [fsGet_remove_ne fsx cur _ hcb]
      exact hbak
    rw [hb2]
    dsimp only
    exact fsGet_set_self _ cur orig
  · rw [if_neg hc]
    dsimp only
    rw [if_neg (by decide : ¬(false = true))]
    rw [hbak]
    dsimp only
    exact fsGet_set_self _ cur orig

theorem install_update_after_backup (cur temp orig : String) (fs : FS) (f : UpdateFaults)
    (hcur : fsGet fs cur = some orig) (htc : temp ≠ cur) (htb : temp ≠ cur ++ ".backup")
    (hs : (create_backup cur fs f).1.isSome = true) :
    ((install_update cur temp fs f).1 = false →
      fsGet (install_update cur temp fs f).2 (cur ++ ".backup") = some orig)
    ∧ ((install_update cur temp fs f).1 = true →
      fsGet (install_update cur temp fs f).2 cur = fsGet fs temp
      ∧ (f.failCleanupBackup = false →
          fsHas (install_update cur temp fs f).2 (cur ++ ".backup") = false)) := by
  have hcb : cur ≠ cur ++ ".backup" := ne_append_backup cur
  obtain ⟨-, hsuccc⟩ := create_backup_chars cur fs f
  obtain ⟨c, hc, hb1, fs0, hfs0, hfs2⟩ := hsuccc hs
  have hco : orig = c := by
    rw [hcur] at hc
    exact Option.some_inj.mp hc
  subst hco
  have hfs0cur : fsGet fs0 cur = fsGet fs cur := by
    rcases hfs0 with rfl | rfl
    · rfl
    · exact fsGet_remove_ne fs _ cur (Ne.symm hcb)
  have hfs0temp : fsGet fs0 temp = fsGet fs temp := by
    rcases hfs0 with rfl | rfl
    · rfl
    · exact fsGet_remove_ne fs _ temp (Ne.symm htb)
  rcases hcbe : create_backup cur fs f with ⟨r, fs1⟩
  rw [hcbe] at hb1 hfs2
  dsimp only at hb1 hfs2
  subst hb1
  subst hfs2
  have h1cur : fsGet (fsSet fs0 (cur ++ ".backup") orig) cur = some orig := by
    rw [fsGet_set_ne _ _ _ _ (Ne.symm hcb), hfs0cur]
    exact hcur
  have h1bak : fsGet (fsSet fs0 (cur ++ ".backup") orig) (cur ++ ".backup") = some orig :=
    fsGet_set_self fs0 _ orig
  have h1temp : fsGet (fsSet fs0 (cur ++ ".backup") orig) temp = fsGet fs temp := by
    rw [fsGet_set_ne _ _ _ _ (Ne.symm htb)]
    exact hfs0temp
  have hhas1 : fsHas (fsSet fs0 (cur ++ ".backup") orig) cur = true := by
    simp [fsHas, h1cur]
  have hiu : install_update cur temp fs f
      = if f.failRemoveCurrent = true then (false, fsSet fs0 (cur ++ ".backup") orig)
        else moveTempStep cur temp (cur ++ ".backup")
            (fsRemove (fsSet fs0 (cur ++ ".backup") orig) cur) f := by
    unfold install_update
    rw [hcbe]
    dsimp only
    rw [if_pos hhas1]
  by_cases hrc : f.failRemoveCurrent = true
  · rw [hiu, if_pos hrc]
    refine ⟨fun _ => h1bak, fun ht => by simp at ht⟩
  · rw [hiu, if_neg hrc]
    have h2bak : fsGet (fsRemove (fsSet fs0 (cur ++ ".backup") orig) cur) (cur ++ ".backup")
        = some orig := by
      rw [fsGet_remove_ne _ _ _ hcb]
      exact h1bak
    have h2temp : fsGet (fsRemove (fsSet fs0 (cur ++ ".backup") orig) cur) temp
        = fsGet fs temp := by
      rw [fsGet_remove_ne _ _ _ (Ne.symm htc)]
      exact h1temp
    unfold moveTempStep
    by_cases hmt : f.failMoveTemp = true
    · rw [if_pos hmt]
      exact ⟨fun _ => h2bak, fun ht => by simp at ht⟩
    · rw [if_neg hmt]
      rcases hgt : fsGet (fsRemove (fsSet fs0 (cur ++ ".backup") orig) cur) temp with _ | ct
        <;> dsimp only
      · exact ⟨fun _ => h2bak, fun ht => by simp at ht⟩
      · have htempv : fsGet fs temp = some ct := by rw [← h2temp, hgt]
        by_cases hcl : f.failCleanupBackup = true
        · rw [if_pos hcl]
          refine ⟨fun hfalse => by simp at hfalse, fun _ => ⟨?_, fun hok => ?_⟩⟩
          · rw [fsGet_set_self, htempv]
          · rw [hok] at hcl
            simp at hcl
        · rw [if_neg hcl]
          refine ⟨fun hfalse => by simp at hfalse, fun _ => ⟨?_, fun _ => ?_⟩⟩
          · rw [fsGet_remove_ne _ _ _ (Ne.symm hcb), fsGet_set_self, htempv]
          · simp [fsHas, fsGet_remove_self]

/-- C3 (as amended): a backup of the running executable is created first,
any stale backup being removed before the copy, so a successful backup
holds the original content; if backup creation fails, `install_update`
returns failure without touching the live executable; on any failure after
the backup was created during the remove/move step, `restore_backup` is
attempted before failure is reported and restores the original executable
content bit-for-bit; on success the new executable is in place and the
backup deletion is attempted with errors suppressed — the backup is
deleted whenever that final removal does not itself fail. -/
theorem install_update_backup_protocol (cur temp orig : String) (fs : FS) (f : UpdateFaults)
    (hcur : fsGet fs cur = some orig) (htc : temp ≠ cur) (htb : temp ≠ cur ++ ".backup") :
    ((create_backup cur fs f).1.isSome = true →
        fsGet (create_backup cur fs f).2 (cur ++ ".backup") = some orig)
    ∧ ((create_backup cur fs f).1 = none →
        install_update cur temp fs f = (false, (create_backup cur fs f).2)
        ∧ fsGet (create_backup cur fs f).2 cur = some orig)
    ∧ ((create_backup cur fs f).1.isSome = true → (install_update cur temp fs f).1 = false →
        fsGet (install_update_with_rollback cur temp fs f ⟨false, false⟩).2 cur = some orig)
    ∧ ((install_update cur temp fs f).1 = true →
        fsGet (install_update cur temp fs f).2 cur = fsGet fs temp
        ∧ (f.failCleanupBackup = false →
            fsHas (install_update cur temp fs f).2 (cur ++ ".backup") = false)) := by
  refine ⟨?_, ?_, ?_, ?_⟩
  · intro hs
    obtain ⟨-, hsuccc⟩ := create_backup_chars cur fs f
    obtain ⟨c, hc, hb1, fs0, hfs0, hfs2⟩ := hsuccc hs
    have hco : orig = c := by
      rw [hcur] at hc
      exact Option.some_inj.mp hc
    subst hco
    rw [hfs2]
    exact fsGet_set_self fs0 _ orig
  · intro hn
    obtain ⟨hfailc, -⟩ := create_backup_chars cur fs f
    obtain ⟨hpres, -⟩ := hfailc hn
    constructor
    · unfold install_update
      rcases hcbe : create_backup cur fs f with ⟨r, fs1⟩
      rw [hcbe] at hn
      dsimp only at hn
      subst hn
      rfl
    · rw [hpres]
      exact hcur
  · intro hs hf
    obtain ⟨hfb, -⟩ := install_update_after_backup cur temp orig fs f hcur htc htb hs
    have hbk := hfb hf
    unfold install_update_with_rollback
    rcases hiue : install_update cur temp fs f with ⟨b, fsr⟩
    rw [hiue] at hf hbk
    dsimp only at hf hbk
    subst hf
    exact restore_backup_restores cur orig fsr hbk
  · intro ht
    have hs : (create_backup cur fs f).1.isSome = true := by
      rcases hcbe : create_backup cur fs f with ⟨r, fs1⟩
      rcases r with _ | bk
      · exfalso
        have hfalse : install_update cur temp fs f = (false, fs1) := by
          unfold install_update
          rw [hcbe]
        rw [hfalse] at ht
        simp at ht
      · simp
    exact (install_update_after_backup cur temp orig fs f hcur htc htb hs).2 ht

/-- Witness for `install_update_backup_protocol`: with the live executable
`app` holding `"old"` and the downloaded temp file `tmp` holding `"new"`,
a fault injected into the move-temp-into-place step makes the install
fail after the backup was created, and the rollback leaves `app` holding
`"old"` again. -/
theorem install_update_backup_protocol_witness :
    fsGet (install_update_with_rollback "app" "tmp" [("app", "old"), ("tmp", "new")]
        ⟨false, false, false, true, false⟩ ⟨false, false⟩).2 "app" = some "old" :=
  (install_update_backup_protocol "app" "tmp" "old" [("app", "old"), ("tmp", "new")]
      ⟨false, false, false, true, false⟩ (by rfl) (by decide) (by decide)).2.2.1
    (by rfl) (by rfl)

/-- C3 counterexample: the backup cleanup on the success path is wrapped in
`try: os.remove(backup_path) except Exception: pass`, so when that removal
fails `install_update` still reports success and the backup file is left
behind — "on success the backup file is deleted" does not hold of every
successful run. -/
theorem cleanup_failure_keeps_backup_on_success :
    (install_update "app" "tmp" [("app", "old"), ("tmp", "new")]
        ⟨false, false, false, false, true⟩).1 = true
    ∧ fsHas (install_update "app" "tmp" [("app", "old"), ("tmp", "new")]
        ⟨false, false, false, false, true⟩).2 ("app" ++ ".backup") = true := by
  constructor <;> rfl
